import Mathlib

/-!
Shallow embedding of the go-rope repository (src/rope.go, the variant with the
cached `length` field, which is the one the specification describes).

Modelling conventions:
* A Go `*Rope` value is either `nil` or a pointer to a struct with fields
  `value []rune`, `weight int`, `length int`, `left *Rope`, `right *Rope`.
  We model it as the inductive `Rope` below, with a `nil` constructor; a Go
  struct literal that omits a field gives that field the zero value (`[]` for the
  rune slice, `0` for ints, `nil` for pointers), and the embedding writes those
  zero values explicitly where the source omits the field.
* Go `rune` (a Unicode code point) is `Char`; a Go string/rune-slice is
  `List Char` (so code-point count is list length).
* Go `int` is modelled as `Int` (the values arising here are tiny compared to
  2^63, so wrap-around cannot occur).
* Operations that can panic in Go (nil-pointer dereference, slice bounds
  violation, or the unbounded mutual recursion in `Insert` on a rope whose
  `length` field is negative) return `Option`; `none` is "the Go program does
  not return normally".  `Insert` and `Report` contain recursive calls whose
  results the source discards; the only observable effect of such a call is a
  panic / divergence, and the embedding runs them with a fuel counter large
  enough that fuel can only run out on inputs where the Go code diverges.
* `internalReport` mutates a rune slice in place through sub-slices sharing one
  backing array; `Slice` models a Go slice as (backing array, offset, window
  length), with the capacity of every slice arising here equal to
  `backing size - offset` (true for `make` results and for the reslicings
  `res[:w]` / `res[w:]` that the source performs).
-/

namespace GoRope

/-- Go struct `Rope` together with the `nil` pointer:
`value []rune; weight, length int; left, right *Rope`. -/
inductive Rope where
  | nil : Rope
  | node (value : List Char) (weight : Int) (length : Int)
      (left : Rope) (right : Rope) : Rope
  deriving DecidableEq

/-- Go `func (rope *Rope) Len() int`: 0 for nil, else the cached length field. -/
def Rope.Len : Rope → Int
  | .nil => 0
  | .node _ _ len _ _ => len

/-- Go `func New(bootstrap string) *Rope`: a leaf whose weight and length are
the code-point count of the string. -/
def New (bootstrap : List Char) : Rope :=
  Rope.node bootstrap (bootstrap.length : Int) (bootstrap.length : Int) Rope.nil Rope.nil

/-- Go rune-slice indexing `v[i]` with an `int` index: panics (none) when out
of range. -/
def runeAt (v : List Char) (i : Int) : Option Char :=
  if i < 0 then none else v.get? i.toNat

/-- Go `func (rope *Rope) Index(idx int) rune`.  The source checks `isLeaf`
(`left == nil`) first, then routes right when `idx > weight`, else left.
Calling it on nil dereferences a nil pointer (none). -/
def Rope.Index : Rope → Int → Option Char
  | .nil, _ => none
  | .node v w _ left right, idx =>
    if left = Rope.nil then runeAt v (idx - 1)
    else if idx > w then right.Index (idx - w)
    else left.Index idx

/-- Go `func (rope *Rope) Concat(other *Rope) *Rope`: nil operands are
identities; otherwise a fresh branch with `weight = rope.Len()`,
`length = rope.Len() + other.Len()` (the `value` field is left at its zero
value, the empty slice). -/
def Rope.Concat : Rope → Rope → Rope
  | .nil, other => other
  | rope, .nil => rope
  | rope, other => Rope.node [] rope.Len (rope.Len + other.Len) rope other

/-- Go slice expression `v[lo:hi]` on a rune slice whose capacity equals its
length: defined when `0 <= lo <= hi <= len(v)`, else a bounds panic (none). -/
def listSlice (v : List Char) (lo hi : Int) : Option (List Char) :=
  if 0 ≤ lo ∧ lo ≤ hi ∧ hi ≤ (v.length : Int) then
    some ((v.take hi.toNat).drop lo.toNat)
  else none

/-- Go `func (rope *Rope) split(idx int, secondRope *Rope) (*Rope, *Rope)`,
the internal recursion of `Split`.  Note two faithful details of the source:
in the `idx > rope.weight` arm the rebuilt branch literal omits both the
`value` and the `length` field (so they are `[]` and `0`), and in the leaf arm
the first part is only built when `idx > 0`.  The unused `secondRope`
parameter of the source (always nil at the call site) is dropped. -/
def Rope.split : Rope → Int → Option (Rope × Rope)
  | .nil, _ => none
  | .node v w len l r, idx =>
    if idx = w then
      some (if l = Rope.nil then Rope.node v w len l r else l, r)
    else if idx > w then
      match r.split (idx - w) with
      | none => none
      | some (newRight, snd) => some (Rope.node [] w 0 l newRight, snd)
    else
      if l = Rope.nil then
        match listSlice v 0 idx, listSlice v idx (v.length : Int) with
        | some v1, some v2 =>
          some (if idx > 0 then Rope.node v1 idx idx Rope.nil Rope.nil else Rope.nil,
            Rope.node v2 ((v.length : Int) - idx) ((v.length : Int) - idx) Rope.nil Rope.nil)
        | _, _ => none
      else
        match l.split idx with
        | none => none
        | some (newLeft, snd) => some (newLeft, snd.Concat r)

/-- Go `func (rope *Rope) Split(idx int) (*Rope, *Rope)`: nil gives
`(nil, nil)`; `idx <= 0` gives `(rope, nil)`; `idx >= rope.length` gives
`(nil, rope)`; otherwise the internal `split`. -/
def Rope.Split : Rope → Int → Option (Rope × Rope)
  | .nil, _ => some (Rope.nil, Rope.nil)
  | .node v w len l r, idx =>
    if idx ≤ 0 then some (Rope.node v w len l r, Rope.nil)
    else if idx ≥ len then some (Rope.nil, Rope.node v w len l r)
    else (Rope.node v w len l r).split idx

/-- A Go rune slice into a shared backing array: every slice reachable in
`internalReport` has capacity `arr.length - off`. -/
structure Slice where
  arr : List Char
  off : Nat
  len : Nat
  deriving DecidableEq

/-- Write `src` into `dst` starting at position `off` (positions past the end
of `dst` are dropped; callers stay within bounds). -/
def writeAt (dst : List Char) (off : Nat) (src : List Char) : List Char :=
  dst.take off ++ src ++ dst.drop (off + src.length)

/-- Go `copy(dst, src)`: copies `min (len dst) (len src)` runes into the
window of `dst`, returning the updated backing array. -/
def sliceCopy (s : Slice) (src : List Char) : List Char :=
  writeAt s.arr s.off (src.take s.len)

/-- Go reslicing `s[:w]`: defined when `0 <= w <= cap(s) = arr.length - off`. -/
def sliceTo (s : Slice) (w : Int) : Option Slice :=
  if 0 ≤ w ∧ w ≤ (s.arr.length : Int) - (s.off : Int) then
    some ⟨s.arr, s.off, w.toNat⟩
  else none

/-- Go reslicing `s[w:]`: defined when `0 <= w <= len(s)`. -/
def sliceFrom (s : Slice) (w : Int) : Option Slice :=
  if 0 ≤ w ∧ w ≤ (s.len : Int) then
    some ⟨s.arr, s.off + w.toNat, s.len - w.toNat⟩
  else none

/-- Go `func (rope *Rope) internalReport(idx, length int, res []rune)`.
The Go function mutates `res`; the embedding returns the updated backing
array (or none on a panic: nil dereference or slice-bounds violation). -/
def Rope.internalReport : Rope → Int → Int → Slice → Option (List Char)
  | .nil, _, _, _ => none
  | .node v w _ l r, idx, length, res =>
    if idx > w then
      r.internalReport (idx - w) length res
    else if w ≥ idx + length - 1 then
      if l = Rope.nil then
        match listSlice v (idx - 1) (idx + length - 1) with
        | none => none
        | some src => some (sliceCopy res src)
      else
        l.internalReport idx length res
    else
      match sliceTo res w with
      | none => none
      | some resL =>
        match l.internalReport idx (w - idx + 1) resL with
        | none => none
        | some arr1 =>
          match sliceFrom ⟨arr1, res.off, res.len⟩ w with
          | none => none
          | some resR => r.internalReport 1 (length - w + idx - 1) resR

/-- Go `func (rope *Rope) Report(idx, length int) string` with a fuel counter
for the two corrective recursive calls whose results the source discards
(`if idx < 1 { rope.Report(1, length) }` and
`if idx+length-1 > rope.length { rope.Report(idx, rope.length-idx+1) }`).
A discarded call only matters when it panics, so the embedding checks it for
`none`; nesting of such calls is bounded by 4 for every input on which the Go
code returns, so fuel 6 never runs out on those inputs. -/
def Rope.reportFuel : Nat → Rope → Int → Int → Option (List Char)
  | _, .nil, _, _ => some []
  | 0, _, _, _ => none
  | fuel+1, .node v w L l r, idx, length =>
    if idx > L then some []
    else if length < 1 then some []
    else if idx < 1 ∧ Rope.reportFuel fuel (Rope.node v w L l r) 1 length = none then none
    else if idx + length - 1 > L ∧
        Rope.reportFuel fuel (Rope.node v w L l r) idx (L - idx + 1) = none then none
    else
      (Rope.node v w L l r).internalReport idx length
        ⟨List.replicate length.toNat (Char.ofNat 0), 0, length.toNat⟩

/-- Go `Report`: see `Rope.reportFuel`. -/
def Rope.Report (rope : Rope) (idx length : Int) : Option (List Char) :=
  Rope.reportFuel 6 rope idx length

/-- Go `func (rope *Rope) String() string`, called `ToText` in the spec:
`rope.Report(1, rope.length)`; on nil it dereferences `rope.length` (none). -/
def Rope.toText : Rope → Option (List Char)
  | .nil => none
  | .node v w len l r => (Rope.node v w len l r).Report 1 len

/-- Go `func (rope *Rope) Insert(idx int, str string) *Rope` with a fuel
counter for the discarded corrective calls (`if idx < 0 { rope.Insert(0, str) }`
and `if idx > rope.length { rope.Insert(rope.length, str) }`).  On a rope whose
`length` field is negative those calls recurse forever in Go; the embedding
returns none there (fuel 4 suffices on every terminating input). -/
def Rope.insertFuel : Nat → Rope → Int → List Char → Option Rope
  | _, .nil, _, str => some (New str)
  | 0, _, _, _ => none
  | fuel+1, .node v w L l r, idx, str =>
    if idx < 0 ∧ Rope.insertFuel fuel (Rope.node v w L l r) 0 str = none then none
    else if idx > L ∧ Rope.insertFuel fuel (Rope.node v w L l r) L str = none then none
    else
      match (Rope.node v w L l r).Split idx with
      | none => none
      | some (r1, r2) => some ((r1.Concat (New str)).Concat r2)

/-- Go `Insert`: see `Rope.insertFuel`. -/
def Rope.Insert (rope : Rope) (idx : Int) (str : List Char) : Option Rope :=
  Rope.insertFuel 4 rope idx str

/-- Go `func (rope *Rope) Delete(idx, length int) *Rope`:
`r1, r2 := rope.Split(idx-1); _, r4 := r2.Split(length); return r1.Concat(r4)`. -/
def Rope.Delete (rope : Rope) (idx length : Int) : Option Rope :=
  match rope.Split (idx - 1) with
  | none => none
  | some (r1, r2) =>
    match r2.Split length with
    | none => none
    | some (_, r4) => some (r1.Concat r4)

/-- Go `func (rope *Rope) Substr(idx, length int) *Rope`: returns nil on a nil
rope, on `idx > rope.length`, or on `length < 1`; then two discarded
corrective `Report` calls (kept for their possible panics); then
`_, r1 := rope.Split(idx-1); r2, _ := r1.Split(length); return r2`. -/
def Rope.Substr (rope : Rope) (idx length : Int) : Option Rope :=
  match rope with
  | .nil => some Rope.nil
  | .node v w L l r =>
    if idx > L then some Rope.nil
    else if length < 1 then some Rope.nil
    else if idx < 1 ∧ (Rope.node v w L l r).Report 1 length = none then none
    else if idx + length - 1 > L ∧
        (Rope.node v w L l r).Report idx (L - idx + 1) = none then none
    else
      match (Rope.node v w L l r).Split (idx - 1) with
      | none => none
      | some (_, r1) =>
        match r1.Split length with
        | none => none
        | some (r2, _) => some r2

/-- The structure invariant of spec section 3 (claim C3), as an executable
predicate: a leaf (left absent) has no right child and
`weight = length = len(value)`; a branch has `weight = left.Len`,
`length = left.Len + right.Len`, and well-formed children. -/
def Rope.invB : Rope → Bool
  | .nil => true
  | .node v w len .nil r =>
    (r == Rope.nil) && (w == (v.length : Int)) && (len == (v.length : Int))
  | .node _ w len l r =>
    (w == l.Len) && (len == l.Len + r.Len) && l.invB && r.invB

/-- Reference text content of a rope: a leaf contributes its value, a branch
the contents of its children. -/
def Rope.flatten : Rope → List Char
  | .nil => []
  | .node v _ _ .nil _ => v
  | .node _ _ _ l r => l.flatten ++ r.flatten

/-- Concrete rope with text "abcd": `New("ab").Concat(New("cd"))`. -/
def exR : Rope := (New ['a', 'b']).Concat (New ['c', 'd'])

/-- First half that the source function `Split(exR, 3)` actually returns: the
rebuilt branch whose `length` field was omitted (hence 0). -/
def exF : Rope := Rope.node [] 2 0 (New ['a', 'b']) (New ['c'])

/-- Second half that the source function `Split(exR, 3)` returns. -/
def exS : Rope := New ['d']

/-- Unfolding equation for `reportFuel` on a non-nil rope with positive fuel. -/
theorem reportFuel_node (fuel : Nat) (v : List Char) (w L : Int) (l r : Rope)
    (idx length : Int) :
    Rope.reportFuel (fuel+1) (Rope.node v w L l r) idx length =
      (if idx > L then some []
      else if length < 1 then some []
      else if idx < 1 ∧ Rope.reportFuel fuel (Rope.node v w L l r) 1 length = none then none
      else if idx + length - 1 > L ∧
          Rope.reportFuel fuel (Rope.node v w L l r) idx (L - idx + 1) = none then none
      else
        (Rope.node v w L l r).internalReport idx length
          ⟨List.replicate length.toNat (Char.ofNat 0), 0, length.toNat⟩) := rfl

/-- Dropping k elements of a (k+1)-element prefix isolates the element at k. -/
theorem take_one_drop (v : List Char) (k : Nat) (c : Char) (h : v.get? k = some c) :
    (v.take (k+1)).drop k = [c] := by
  rw [List.get?_eq_getElem?] at h
  obtain ⟨h2, hc⟩ := List.getElem?_eq_some.mp h
  rw [List.drop_take, List.drop_eq_getElem_cons h2, hc]
  simp

/-- On a well-formed rope the cached length field equals the length of the
flattened content. -/
theorem Len_flatten (rope : Rope) (h : rope.invB = true) :
    rope.Len = (rope.flatten.length : Int) := by
  induction rope with
  | nil => simp [Rope.Len, Rope.flatten]
  | node v w len l r ihl ihr =>
    cases l with
    | nil =>
      simp only [Rope.invB, Bool.and_eq_true, beq_iff_eq] at h
      obtain ⟨⟨hr, hw⟩, hlen⟩ := h
      simp [Rope.Len, Rope.flatten, hlen]
    | node lv lw lL ll lr =>
      simp only [Rope.invB, Bool.and_eq_true, beq_iff_eq] at h
      obtain ⟨⟨⟨hw, hlen⟩, hil⟩, hir⟩ := h
      have el := ihl hil
      have er := ihr hir
      simp only [Rope.Len, Rope.flatten, List.length_append]
      push_cast
      omega

/-- On a well-formed rope, `Index` with a valid 1-based position returns the
corresponding element of the flattened content. -/
theorem Index_flatten (rope : Rope) (h : rope.invB = true) :
    ∀ i : Int, 1 ≤ i → i ≤ rope.Len → rope.Index i = rope.flatten.get? (i - 1).toNat := by
  induction rope with
  | nil => intro i h1 h2; simp [Rope.Len] at h2; omega
  | node v w len l r ihl ihr =>
    intro i h1 h2
    simp only [Rope.Len] at h2
    cases l with
    | nil =>
      simp only [Rope.Index, runeAt, Rope.flatten, eq_self_iff_true, if_true]
      rw [if_neg (by omega : ¬ i - 1 < 0)]
    | node lv lw lL ll lr =>
      simp only [Rope.invB, Bool.and_eq_true, beq_iff_eq] at h
      obtain ⟨⟨⟨hw, hlen⟩, hil⟩, hir⟩ := h
      have el := Len_flatten _ hil
      have er := Len_flatten _ hir
      have hne : (Rope.node lv lw lL ll lr) ≠ Rope.nil := fun hh => Rope.noConfusion hh
      simp only [Rope.Index, Rope.flatten]
      rw [if_neg hne]
      by_cases hgt : i > w
      · rw [if_pos hgt]
        rw [ihr hir (i - w) (by omega) (by omega)]
        rw [List.get?_append_right (by omega)]
        congr 1
        omega
      · rw [if_neg hgt]
        rw [List.get?_append (by omega), ← ihl hil i h1 (by omega)]
        simp only [Rope.Index]

/-- On a well-formed rope, an `internalReport` request of length 1 at a valid
position writes exactly the requested code point into the buffer window. -/
theorem internalReport_one (rope : Rope) (h : rope.invB = true) :
    ∀ i : Int, 1 ≤ i → i ≤ rope.Len →
    ∀ c : Char, rope.flatten.get? (i - 1).toNat = some c →
    ∀ (arr : List Char) (off : Nat), off + 1 ≤ arr.length →
    rope.internalReport i 1 ⟨arr, off, 1⟩ = some (writeAt arr off [c]) := by
  induction rope with
  | nil => intro i h1 h2; simp [Rope.Len] at h2; omega
  | node v w len l r ihl ihr =>
    intro i h1 h2 c hc arr off hoff
    simp only [Rope.Len] at h2
    cases l with
    | nil =>
      simp only [Rope.invB, Bool.and_eq_true, beq_iff_eq] at h
      obtain ⟨⟨hr, hw⟩, hlen⟩ := h
      simp only [Rope.flatten] at hc
      have hk : (i - 1).toNat < v.length := by
        rw [List.get?_eq_getElem?] at hc
        exact (List.getElem?_eq_some.mp hc).1
      simp only [Rope.internalReport]
      rw [if_neg (by omega : ¬ i > w), if_pos (by omega : w ≥ i + 1 - 1),
        if_pos trivial]
      simp only [listSlice]
      rw [if_pos ⟨by omega, by omega, by omega⟩]
      rw [show (i + 1 - 1).toNat = (i - 1).toNat + 1 by omega]
      rw [take_one_drop v ((i - 1).toNat) c hc]
      simp [sliceCopy]
    | node lv lw lL ll lr =>
      simp only [Rope.invB, Bool.and_eq_true, beq_iff_eq] at h
      obtain ⟨⟨⟨hw, hlen⟩, hil⟩, hir⟩ := h
      have el := Len_flatten _ hil
      have er := Len_flatten _ hir
      have hne : (Rope.node lv lw lL ll lr) ≠ Rope.nil := fun hh => Rope.noConfusion hh
      simp only [Rope.flatten] at hc
      simp only [Rope.internalReport]
      by_cases hgt : i > w
      · rw [if_pos hgt]
        rw [List.get?_append_right (by omega)] at hc
        rw [show ((i - 1).toNat - (Rope.node lv lw lL ll lr).flatten.length)
            = ((i - w) - 1).toNat by omega] at hc
        exact ihr hir (i - w) (by omega) (by omega) c hc arr off hoff
      · rw [if_neg hgt, if_pos (by omega : w ≥ i + 1 - 1), if_neg hne]
        rw [List.get?_append (by omega)] at hc
        exact ihl hil i h1 (by omega) c hc arr off hoff

/-- The text of a freshly constructed rope is the construction string. -/
theorem toText_New (s : List Char) : (New s).toText = some s := by
  cases s with
  | nil => decide
  | cons a t =>
    have hlen : ((a :: t).length : Int) = (t.length : Int) + 1 := by
      simp only [List.length_cons]; push_cast; ring
    show Rope.reportFuel 6 (Rope.node (a :: t) ((a :: t).length : Int)
      ((a :: t).length : Int) Rope.nil Rope.nil) 1 ((a :: t).length : Int) = some (a :: t)
    rw [show (6 : Nat) = 5 + 1 from rfl, reportFuel_node]
    rw [if_neg (by rw [hlen]; omega : ¬ (1 : Int) > ((a :: t).length : Int))]
    rw [if_neg (by rw [hlen]; omega : ¬ ((a :: t).length : Int) < 1)]
    rw [if_neg (fun hcon => absurd hcon.1 (by omega))]
    rw [if_neg (fun hcon => absurd hcon.1 (by omega))]
    simp only [Rope.internalReport]
    rw [if_neg (by rw [hlen]; omega : ¬ (1 : Int) > ((a :: t).length : Int))]
    rw [if_pos (by omega : ((a :: t).length : Int) ≥ 1 + ((a :: t).length : Int) - 1)]
    rw [if_pos trivial]
    simp only [listSlice]
    rw [if_pos ⟨by omega, by rw [hlen]; omega, by omega⟩]
    rw [show ((1 : Int) + ((a :: t).length : Int) - 1).toNat = (a :: t).length by
      rw [hlen]; simp only [List.length_cons]; omega]
    rw [show ((1 : Int) - 1).toNat = 0 by omega]
    rw [List.take_length, List.drop_zero]
    simp [sliceCopy, writeAt, List.drop_replicate]

/-- C1, counterexample evaluation: the claim says that for every rope and every
split point the two halves of `Split` concatenate back to the original text.
For `exR` (text "abcd") and split point 3, the source rebuilds the first half
as a branch whose `length` field is omitted (hence 0), so the concatenation of
the two halves renders as "d" instead of "abcd". -/
theorem split_concat_roundtrip_cex :
    exR.toText = some ['a', 'b', 'c', 'd'] ∧
    exR.Split 3 = some (exF, exS) ∧
    (exF.Concat exS).toText = some ['d'] := by decide

/-- C2, counterexample evaluation: the claim says `Split(r, i)` with `i <= 0`
returns (empty, r) and with `i >= Len(r)` returns (r, empty).  The source has
the two boundary cases swapped: `Split(New "ab", 0)` returns the whole rope as
the FIRST half, and `Split(New "ab", 2)` returns it as the SECOND half. -/
theorem split_boundary_cex :
    (New ['a', 'b']).Split 0 = some (New ['a', 'b'], Rope.nil) ∧
    (New ['a', 'b']).Split 2 = some (Rope.nil, New ['a', 'b']) ∧
    (New ['a', 'b']).toText = some ['a', 'b'] := by decide

/-- C3, counterexample evaluation: the claim says every node reachable from the
result of a public operation satisfies the weight/length invariant.  The rope
`exR` is well-formed, yet the first half returned by `Split(exR, 3)` is a
branch with `length = 0` while its children hold 3 code points. -/
theorem split_invariant_cex :
    exR.invB = true ∧ exR.Split 3 = some (exF, exS) ∧ exF.invB = false := by decide

/-- C4, counterexample evaluation: the claim says out-of-range arguments make
the operations fail with an OutOfRange error and are never silently clamped.
`Insert(New "ab", -1, "x")` discards its corrective recursive call and then
silently returns a rope with text "abx"; no error is raised (the API has no
error channel at all). -/
theorem insert_out_of_range_no_error :
    (New ['a', 'b']).Insert (-1) ['x'] = some ((New ['a', 'b']).Concat (New ['x'])) ∧
    ((New ['a', 'b']).Concat (New ['x'])).toText = some ['a', 'b', 'x'] := by decide

/-- C5, counterexample evaluation: the claim says inserting at 0 prepends and
inserting at `Len(rope)` appends.  Because the `Split` boundary cases are
swapped, `Insert(New "ab", 0, "x")` yields text "abx" (append) and
`Insert(New "ab", 2, "x")` yields text "xab" (prepend). -/
theorem insert_boundary_swapped :
    (New ['a', 'b']).Insert 0 ['x'] = some ((New ['a', 'b']).Concat (New ['x'])) ∧
    ((New ['a', 'b']).Concat (New ['x'])).toText = some ['a', 'b', 'x'] ∧
    (New ['a', 'b']).Insert 2 ['x'] = some ((New ['x']).Concat (New ['a', 'b'])) ∧
    ((New ['x']).Concat (New ['a', 'b'])).toText = some ['x', 'a', 'b'] := by decide

/-- C6: for every string `s`, `New(s)` has `Len` equal to the code-point count
of `s` and `ToText(New(s)) = s`; in particular this holds for the empty
string (covered by the universal quantifier over `s`). -/
theorem new_len_toText (s : List Char) :
    (New s).Len = (s.length : Int) ∧ (New s).toText = some s :=
  ⟨rfl, toText_New s⟩

/-- C7: for every well-formed rope and every valid 1-based index `i`,
`Report(rope, i, 1)` is exactly the one-element sequence holding
`Index(rope, i)`. -/
theorem index_eq_report_head (rope : Rope) (i : Int) (h : rope.invB = true)
    (h1 : 1 ≤ i) (h2 : i ≤ rope.Len) :
    rope.Report i 1 = Option.map (fun c => [c]) (rope.Index i) := by
  cases rope with
  | nil => simp [Rope.Len] at h2; omega
  | node v w L l r =>
    have hflen := Len_flatten _ h
    simp only [Rope.Len] at h2 hflen
    have hlt : (i - 1).toNat < (Rope.node v w L l r).flatten.length := by omega
    obtain ⟨c, hc⟩ : ∃ c, (Rope.node v w L l r).flatten.get? (i - 1).toNat = some c := by
      rw [List.get?_eq_getElem?]
      exact ⟨_, List.getElem?_eq_some.mpr ⟨hlt, rfl⟩⟩
    have hIdx := Index_flatten _ h i h1 (by simp only [Rope.Len]; omega)
    have hRep := internalReport_one _ h i h1 (by simp only [Rope.Len]; omega) c hc
      (List.replicate 1 (Char.ofNat 0)) 0 (by simp)
    show Rope.reportFuel 6 _ i 1 = _
    rw [show (6 : Nat) = 5 + 1 from rfl, reportFuel_node]
    rw [if_neg (by omega : ¬ i > L), if_neg (by omega : ¬ (1 : Int) < 1)]
    rw [if_neg (fun hcon => absurd hcon.1 (by omega))]
    rw [if_neg (fun hcon => absurd hcon.1 (by omega))]
    rw [show ((1 : Int)).toNat = 1 from rfl]
    rw [hRep, hIdx, hc]
    simp [writeAt]

/-- C7 witness: the agreement of `Index` and `Report` at the concrete rope
`exR` (text "abcd") and index 3. -/
theorem index_eq_report_head_witness :
    exR.Report 3 1 = Option.map (fun c => [c]) (exR.Index 3) :=
  index_eq_report_head exR 3 (by decide) (by decide) (by decide)

/-- C8, counterexample: the claim says `Concat(a, b)` with `a` the EMPTY or
absent rope is `b`.  The source only treats the absent (nil) pointer as an
identity: concatenating the empty-but-present leaf `New("")` with `New("a")`
builds a fresh branch, which is not the rope `New("a")`. -/
theorem concat_empty_cex :
    Rope.Len (New ([] : List Char)) = 0 ∧
    (New ([] : List Char)).Concat (New ['a']) ≠ New ['a'] := by decide

/-- C8 as amended: `Concat` treats only the ABSENT (nil) operand as an
identity, and for two present ropes (empty or not) builds a new branch with
`left = a`, `right = b`, `weight = Len(a)`, `length = Len(a) + Len(b)`. -/
theorem concat_cases :
    (∀ b : Rope, Rope.nil.Concat b = b) ∧
    (∀ a : Rope, a.Concat Rope.nil = a) ∧
    (∀ (v : List Char) (w L : Int) (l r : Rope)
      (v2 : List Char) (w2 L2 : Int) (l2 r2 : Rope),
      (Rope.node v w L l r).Concat (Rope.node v2 w2 L2 l2 r2) =
        Rope.node [] (Rope.node v w L l r).Len
          ((Rope.node v w L l r).Len + (Rope.node v2 w2 L2 l2 r2).Len)
          (Rope.node v w L l r) (Rope.node v2 w2 L2 l2 r2)) := by
  refine ⟨fun b => ?_, fun a => ?_, fun v w L l r v2 w2 L2 l2 r2 => rfl⟩
  · cases b <;> rfl
  · cases a <;> rfl

/-- C9: a zero-length request is not a fault: for every rope and every start
index, `Report(rope, i, 0)` returns the empty sequence and `Substr(rope, i, 0)`
returns the empty (length-0, nil) rope, with no panic. -/
theorem report_substr_zero (rope : Rope) (i : Int) :
    rope.Report i 0 = some [] ∧ rope.Substr i 0 = some Rope.nil ∧ Rope.nil.Len = 0 := by
  refine ⟨?_, ?_, rfl⟩
  · cases rope with
    | nil => rfl
    | node v w L l r =>
      show Rope.reportFuel 6 _ i 0 = some []
      rw [show (6 : Nat) = 5 + 1 from rfl, reportFuel_node]
      by_cases hgt : i > L
      · rw [if_pos hgt]
      · rw [if_neg hgt, if_pos (by omega : (0 : Int) < 1)]
  · cases rope with
    | nil => rfl
    | node v w L l r =>
      simp only [Rope.Substr]
      by_cases hgt : i > L
      · rw [if_pos hgt]
      · rw [if_neg hgt, if_pos (by omega : (0 : Int) < 1)]

/-- C10: `Insert` on the absent (nil) rope returns `New(str)` for every index
(also out-of-range ones) and every string, and the text of that result is
exactly the inserted string. -/
theorem insert_nil (i : Int) (s : List Char) :
    Rope.nil.Insert i s = some (New s) ∧ (New s).toText = some s :=
  ⟨rfl, toText_New s⟩

end GoRope
